import Mathlib

/-!
Verification of the AgentGuard core against its specification.

The AgentGuard repository ships a native core engine (safety checker,
resource manager, delegation graph, demand estimator) behind Python
bindings; the Python sources contain the high-level wrappers
(`langgraph/guard.py`, `langgraph/callback.py`) and the test-suite.
The core components below are shallow embeddings: operations of the
native engine are modelled from the specification text, while the
wrapper-level definitions (`add_resource`, `acquire`, the callback
handler) follow the Python sources directly.

All quantities are natural numbers (discrete, bounded resources);
needs are signed because a declared maximum smaller than the current
allocation produces a negative need, which the checker must report
as unsafe.
-/

namespace AgentGuard

/-! ### Safety checker (Banker's algorithm)

Modelled from the spec: the native `SafetyChecker::check_safety` is not
under `src/`; §4.1 of the specification defines it as a Banker's-style
feasibility oracle with ascending-agent-id tie-break. -/

structure SafetyCheckInput where
  resources : List Nat
  agents : List Nat
  available : Nat → Nat
  allocation : Nat → Nat → Nat
  max_need : Nat → Nat → Nat

structure SafetyCheckResult where
  is_safe : Bool
  safe_sequence : List Nat

/-- Remaining need of agent `a` on resource `r`: `max_need - allocation`,
signed so that over-allocation shows up as a negative need. -/
def SafetyCheckInput.need (inp : SafetyCheckInput) (a r : Nat) : Int :=
  (inp.max_need a r : Int) - (inp.allocation a r : Int)

/-- Agent `a` can run to completion when its need is covered by `work`
on every resource. -/
def canFinish (inp : SafetyCheckInput) (work : Nat → Nat) (a : Nat) : Bool :=
  inp.resources.all (fun r => decide (inp.need a r ≤ (work r : Int)))

/-- Release agent `a`'s allocation back into the work vector. -/
def addWork (inp : SafetyCheckInput) (work : Nat → Nat) (a : Nat) : Nat → Nat :=
  fun r => work r + inp.allocation a r

/-- First agent in the pending list that can finish with the current
work vector.  On an ascending list this is the eligible agent with the
smallest id — the spec's deterministic tie-break. -/
def findEligible (inp : SafetyCheckInput) (work : Nat → Nat) : List Nat → Option Nat
  | [] => none
  | a :: rest => if canFinish inp work a then some a else findEligible inp work rest

/-- Banker's iteration: repeatedly finish an eligible agent, reclaim its
allocation, and record it in the sequence.  Returns the completion
sequence and the agents left unfinished. -/
def bankersRun (inp : SafetyCheckInput) : Nat → (Nat → Nat) → List Nat → List Nat × List Nat
  | 0, _, pending => ([], pending)
  | fuel + 1, work, pending =>
    match findEligible inp work pending with
    | none => ([], pending)
    | some a =>
      let rest := bankersRun inp fuel (addWork inp work a) (pending.erase a)
      (a :: rest.1, rest.2)

/-- Does any agent have a negative need entry on some resource? -/
def hasNegativeNeed (inp : SafetyCheckInput) : Bool :=
  inp.agents.any (fun a => inp.resources.any (fun r => decide (inp.need a r < 0)))

/-- Agents of the input, deduplicated and sorted ascending (the map keys
of the native input are unique and iterate in ascending order). -/
def sortedAgents (inp : SafetyCheckInput) : List Nat :=
  List.insertionSort (· ≤ ·) inp.agents.dedup

/-- Modelled from the spec: Banker's safety check (§4.1).  Negative needs
are reported unsafe; otherwise the iteration starts from
`work = available` and finishes agents in ascending-id order. -/
def check_safety (inp : SafetyCheckInput) : SafetyCheckResult :=
  if hasNegativeNeed inp then ⟨false, []⟩
  else
    let run := bankersRun inp (sortedAgents inp).length inp.available (sortedAgents inp)
    ⟨run.2.isEmpty, run.1⟩

/-- Declarative completion check: the sequence finishes its agents in
order, each agent's need being covered by the accumulated work. -/
def validSeq (inp : SafetyCheckInput) : (Nat → Nat) → List Nat → Bool
  | _, [] => true
  | work, a :: rest => canFinish inp work a && validSeq inp (addWork inp work a) rest

theorem canFinish_mono (inp : SafetyCheckInput) {w w' : Nat → Nat}
    (h : ∀ r ∈ inp.resources, w r ≤ w' r) {a : Nat}
    (hc : canFinish inp w a = true) : canFinish inp w' a = true := by
  simp only [canFinish, List.all_eq_true, decide_eq_true_eq] at hc ⊢
  intro r hr
  exact le_trans (hc r hr) (by exact_mod_cast h r hr)

theorem addWork_mono (inp : SafetyCheckInput) {w w' : Nat → Nat}
    (h : ∀ r ∈ inp.resources, w r ≤ w' r) (a : Nat) :
    ∀ r ∈ inp.resources, addWork inp w a r ≤ addWork inp w' a r := by
  intro r hr
  simp only [addWork]
  exact Nat.add_le_add_right (h r hr) _

theorem le_addWork (inp : SafetyCheckInput) (w : Nat → Nat) (a : Nat) :
    ∀ r ∈ inp.resources, w r ≤ addWork inp w a r := by
  intro r _
  exact Nat.le_add_right _ _

theorem validSeq_mono (inp : SafetyCheckInput) {l : List Nat} :
    ∀ {w w' : Nat → Nat}, (∀ r ∈ inp.resources, w r ≤ w' r) →
      validSeq inp w l = true → validSeq inp w' l = true := by
  induction l with
  | nil => intro w w' _ _; rfl
  | cons a rest ih =>
    intro w w' h hv
    simp only [validSeq, Bool.and_eq_true] at hv ⊢
    exact ⟨canFinish_mono inp h hv.1, ih (addWork_mono inp h a) hv.2⟩

theorem addWork_comm (inp : SafetyCheckInput) (w : Nat → Nat) (a b : Nat) :
    addWork inp (addWork inp w a) b = addWork inp (addWork inp w b) a := by
  funext r
  simp only [addWork]
  omega

/-- Exchange lemma: if an eligible agent `a` occurs anywhere in a valid
completion sequence, it can be moved to the front. -/
theorem validSeq_erase (inp : SafetyCheckInput) {l : List Nat} :
    ∀ {w : Nat → Nat} {a : Nat}, canFinish inp w a = true → a ∈ l →
      validSeq inp w l = true → validSeq inp (addWork inp w a) (l.erase a) = true := by
  induction l with
  | nil => intro w a _ h; exact absurd h (List.not_mem_nil a)
  | cons b rest ih =>
    intro w a hca hmem hv
    simp only [validSeq, Bool.and_eq_true] at hv
    by_cases hab : b = a
    · subst hab
      rw [List.erase_cons_head]
      exact hv.2
    · rw [List.erase_cons_tail (by simpa using hab)]
      have hmem' : a ∈ rest := by
        rcases List.mem_cons.mp hmem with h | h
        · exact absurd h.symm hab
        · exact h
      simp only [validSeq, Bool.and_eq_true]
      refine ⟨canFinish_mono inp (le_addWork inp w a) hv.1, ?_⟩
      rw [addWork_comm]
      exact ih (canFinish_mono inp (le_addWork inp w b) hca) hmem' hv.2

theorem findEligible_sound (inp : SafetyCheckInput) (w : Nat → Nat) :
    ∀ {l : List Nat} {a : Nat}, findEligible inp w l = some a →
      a ∈ l ∧ canFinish inp w a = true := by
  intro l
  induction l with
  | nil => intro a h; simp [findEligible] at h
  | cons b rest ih =>
    intro a h
    simp only [findEligible] at h
    by_cases hb : canFinish inp w b = true
    · rw [if_pos hb] at h
      cases h
      exact ⟨List.mem_cons_self _ _, hb⟩
    · rw [if_neg hb] at h
      obtain ⟨hmem, hc⟩ := ih h
      exact ⟨List.mem_cons_of_mem _ hmem, hc⟩

theorem findEligible_isSome (inp : SafetyCheckInput) (w : Nat → Nat) :
    ∀ {l : List Nat} {a : Nat}, a ∈ l → canFinish inp w a = true →
      ∃ b, findEligible inp w l = some b := by
  intro l
  induction l with
  | nil => intro a h; exact absurd h (List.not_mem_nil a)
  | cons c rest ih =>
    intro a hmem hc
    simp only [findEligible]
    by_cases hcc : canFinish inp w c = true
    · exact ⟨c, by rw [if_pos hcc]⟩
    · rcases List.mem_cons.mp hmem with h | h
      · subst h; exact absurd hc hcc
      · obtain ⟨b, hb⟩ := ih h hc
        exact ⟨b, by rw [if_neg hcc]; exact hb⟩

/-- On a sorted pending list the selected agent is the eligible agent
with the smallest id (the spec's deterministic tie-break). -/
theorem findEligible_min (inp : SafetyCheckInput) (w : Nat → Nat) :
    ∀ {l : List Nat}, l.Sorted (· ≤ ·) → ∀ {a : Nat}, findEligible inp w l = some a →
      ∀ b ∈ l, canFinish inp w b = true → a ≤ b := by
  intro l
  induction l with
  | nil => intro _ a h; simp [findEligible] at h
  | cons c rest ih =>
    intro hs a h b hb hcb
    rw [List.sorted_cons] at hs
    simp only [findEligible] at h
    by_cases hcc : canFinish inp w c = true
    · rw [if_pos hcc] at h
      cases h
      rcases List.mem_cons.mp hb with hbc | hbr
      · exact le_of_eq hbc.symm
      · exact hs.1 b hbr
    · rw [if_neg hcc] at h
      rcases List.mem_cons.mp hb with hbc | hbr
      · subst hbc; exact absurd hcb hcc
      · exact ih hs.2 h b hbr hcb

/-- Completeness of the greedy Banker's iteration: if any valid
completion order of the pending agents exists, the iteration finishes
every one of them. -/
theorem bankersRun_complete (inp : SafetyCheckInput) :
    ∀ (fuel : Nat) (pending : List Nat) (w : Nat → Nat) (l : List Nat),
      pending.length ≤ fuel → l.Perm pending → validSeq inp w l = true →
      (bankersRun inp fuel w pending).2 = [] := by
  intro fuel
  induction fuel with
  | zero =>
    intro pending w l hlen _ _
    have : pending = [] := List.eq_nil_of_length_eq_zero (Nat.le_zero.mp hlen)
    subst this
    rfl
  | succ fuel ih =>
    intro pending w l hlen hperm hv
    cases pending with
    | nil => rfl
    | cons p ps =>
      cases l with
      | nil => exact absurd hperm.symm (by simp)
      | cons b t =>
        simp only [validSeq, Bool.and_eq_true] at hv
        have hbmem : b ∈ p :: ps := hperm.mem_iff.mp (List.mem_cons_self b t)
        obtain ⟨a, ha⟩ := findEligible_isSome inp w hbmem hv.1
        obtain ⟨hamem, hca⟩ := findEligible_sound inp w ha
        have haml : a ∈ b :: t := hperm.mem_iff.mpr hamem
        have hv' : validSeq inp (addWork inp w a) ((b :: t).erase a) = true :=
          validSeq_erase inp hca haml (by simp [validSeq, hv.1, hv.2])
        have hperm' : ((b :: t).erase a).Perm ((p :: ps).erase a) := hperm.erase a
        have hlen' : ((p :: ps).erase a).length ≤ fuel := by
          rw [List.length_erase_of_mem hamem]
          simpa using Nat.le_of_succ_le_succ hlen
        simp only [bankersRun, ha]
        exact ih ((p :: ps).erase a) (addWork inp w a) ((b :: t).erase a) hlen' hperm' hv'

/-- Soundness of the Banker's iteration: the produced sequence is a valid
completion order and, together with the leftover agents, a permutation of
the pending list. -/
theorem bankersRun_sound (inp : SafetyCheckInput) :
    ∀ (fuel : Nat) (w : Nat → Nat) (pending : List Nat),
      validSeq inp w (bankersRun inp fuel w pending).1 = true ∧
        ((bankersRun inp fuel w pending).1 ++ (bankersRun inp fuel w pending).2).Perm pending := by
  intro fuel
  induction fuel with
  | zero => intro w pending; exact ⟨rfl, List.Perm.refl _⟩
  | succ fuel ih =>
    intro w pending
    cases hfe : findEligible inp w pending with
    | none => simp only [bankersRun, hfe]; exact ⟨rfl, List.Perm.refl _⟩
    | some a =>
      obtain ⟨hamem, hca⟩ := findEligible_sound inp w hfe
      obtain ⟨hvalid, hperm⟩ := ih (addWork inp w a) (pending.erase a)
      simp only [bankersRun, hfe]
      constructor
      · simp only [validSeq, Bool.and_eq_true]
        exact ⟨hca, hvalid⟩
      · exact List.Perm.trans (hperm.cons a) (List.perm_cons_erase hamem).symm

/-- C1: `check_safety` returns `is_safe = true` exactly when the Banker's
iteration finishes every agent, i.e. when some valid completion order of
the (deduplicated) agents exists and no need entry is negative; the
returned `safe_sequence` is such a completion order over all agents; any
negative need yields `is_safe = false`; and the agent selected in a round
is the eligible agent with the smallest id, so the sequence is
deterministic. -/
theorem check_safety_banker_characterization (inp : SafetyCheckInput) :
    ((check_safety inp).is_safe = true ↔
      hasNegativeNeed inp = false ∧
        ∃ seq, seq.Perm inp.agents.dedup ∧ validSeq inp inp.available seq = true)
    ∧ ((check_safety inp).is_safe = true →
        validSeq inp inp.available (check_safety inp).safe_sequence = true ∧
          (check_safety inp).safe_sequence.Perm inp.agents.dedup)
    ∧ (hasNegativeNeed inp = true → (check_safety inp).is_safe = false)
    ∧ (∀ (w : Nat → Nat) (l : List Nat) (a : Nat), l.Sorted (· ≤ ·) →
        findEligible inp w l = some a → ∀ b ∈ l, canFinish inp w b = true → a ≤ b) := by
  have hperm_sort : (sortedAgents inp).Perm inp.agents.dedup :=
    List.perm_insertionSort _ _
  by_cases hneg : hasNegativeNeed inp = true
  · refine ⟨⟨fun h => ?_, fun h => ?_⟩, fun h => ?_, fun _ => ?_, ?_⟩
    · simp [check_safety, hneg] at h
    · rw [hneg] at h
      exact absurd h.1 (by simp)
    · simp [check_safety, hneg] at h
    · simp [check_safety, hneg]
    · intro w l a hs hfe
      exact findEligible_min inp w hs hfe
  · have hneg' : hasNegativeNeed inp = false := by
      exact Bool.not_eq_true _ |>.mp hneg
    obtain ⟨hsound, hperm⟩ :=
      bankersRun_sound inp (sortedAgents inp).length inp.available (sortedAgents inp)
    have hsafe_eq : (check_safety inp).is_safe =
        (bankersRun inp (sortedAgents inp).length inp.available (sortedAgents inp)).2.isEmpty := by
      simp [check_safety, hneg']
    have hseq_eq : (check_safety inp).safe_sequence =
        (bankersRun inp (sortedAgents inp).length inp.available (sortedAgents inp)).1 := by
      simp [check_safety, hneg']
    refine ⟨⟨fun h => ?_, fun h => ?_⟩, fun h => ?_, fun h => ?_, ?_⟩
    · rw [hsafe_eq, List.isEmpty_iff] at h
      rw [h, List.append_nil] at hperm
      exact ⟨hneg', _, hperm.trans hperm_sort, hsound⟩
    · obtain ⟨-, seq, hsp, hsv⟩ := h
      have : (bankersRun inp (sortedAgents inp).length inp.available (sortedAgents inp)).2 = [] :=
        bankersRun_complete inp (sortedAgents inp).length (sortedAgents inp)
          inp.available seq (le_refl _) (hsp.trans hperm_sort.symm) hsv
      rw [hsafe_eq, this]
      rfl
    · rw [hsafe_eq, List.isEmpty_iff] at h
      rw [h, List.append_nil] at hperm
      rw [hseq_eq]
      exact ⟨hsound, hperm.trans hperm_sort⟩
    · exact absurd h (by simp [hneg'])
    · intro w l a hs hfe
      exact findEligible_min inp w hs hfe

/-! ### Hypothetical safety check -/

/-- The input obtained by hypothetically granting `q` units of resource
`r` to agent `a`: `available[r] -= q`, `allocation[a][r] += q`. -/
def hypotheticalInput (inp : SafetyCheckInput) (a r q : Nat) : SafetyCheckInput :=
  { inp with
    available := fun x => if x = r then inp.available r - q else inp.available x
    allocation := fun x y =>
      if x = a ∧ y = r then inp.allocation a r + q else inp.allocation x y }

/-- Modelled from the spec: `check_hypothetical(input, a, r, q)` (§4.1)
returns unsafe if `q > available[r]` or `q > need[a][r]`, otherwise runs
the safety check on the hypothetically granted state. -/
def check_hypothetical (inp : SafetyCheckInput) (a r q : Nat) : SafetyCheckResult :=
  if (inp.available r : Int) < q ∨ inp.need a r < q then ⟨false, []⟩
  else check_safety (hypotheticalInput inp a r q)

/-- The classic Banker's base state of the test-suite: one resource `R1`
with capacity 10, agents `A0` (alloc 3, max 7) and `A1` (alloc 2, max 4),
5 units available. -/
def exInput : SafetyCheckInput where
  resources := [1]
  agents := [0, 1]
  available := fun r => if r = 1 then 5 else 0
  allocation := fun a r =>
    if r = 1 then (if a = 0 then 3 else if a = 1 then 2 else 0) else 0
  max_need := fun a r =>
    if r = 1 then (if a = 0 then 7 else if a = 1 then 4 else 0) else 0

/-- C4: `check_hypothetical` is unsafe when the request exceeds the
available units or the agent's need, and otherwise coincides with
`check_safety` on the hypothetically granted input; on the classic base
state a hypothetical grant of 2 to `A0` is safe and a grant of 5 is
unsafe. -/
theorem check_hypothetical_spec :
    (∀ (inp : SafetyCheckInput) (a r q : Nat),
        ((inp.available r : Int) < q ∨ inp.need a r < q) →
        (check_hypothetical inp a r q).is_safe = false)
    ∧ (∀ (inp : SafetyCheckInput) (a r q : Nat),
        ¬((inp.available r : Int) < q ∨ inp.need a r < q) →
        check_hypothetical inp a r q = check_safety (hypotheticalInput inp a r q))
    ∧ (check_hypothetical exInput 0 1 2).is_safe = true
    ∧ (check_hypothetical exInput 0 1 5).is_safe = false := by
  refine ⟨fun inp a r q h => ?_, fun inp a r q h => ?_, by decide, by decide⟩
  · simp only [check_hypothetical]
    rw [if_pos h]
  · simp only [check_hypothetical]
    rw [if_neg h]

/-! ### Resource manager state machine

Modelled from the spec: the native `ResourceManager` is not under
`src/`; §4.2 defines the request/release state machine and §3/§8 its
invariants.  Requests model the synchronous immediate-grant path: a
request that is not granted leaves the state untouched (§5: resources
held by a denied/timed-out request are unaffected — nothing was
granted). -/

inductive RequestStatus where
  | Granted
  | Denied
  | TimedOut
  | Cancelled
deriving DecidableEq

structure MState where
  registered : List Nat
  cap : Nat → Nat
  avail : Nat → Nat
  agents : List Nat
  hold : Nat → Nat → Nat
  maxNeed : Nat → Nat → Nat

/-- Total units of resource `r` held across all registered agents. -/
def sumHold (s : MState) (r : Nat) : Nat :=
  (s.agents.map (fun a => s.hold a r)).sum

/-- The safety-check input derived from the manager state. -/
def toInput (s : MState) : SafetyCheckInput where
  resources := s.registered
  agents := s.agents
  available := s.avail
  allocation := s.hold
  max_need := s.maxNeed

/-- Manager well-formedness: the accounting invariant
`A[r] + Σ_a H[a,r] = C[r]` on registered resources, plus bookkeeping
facts (unique ids, unregistered agents and resources hold nothing). -/
def WF (s : MState) : Prop :=
  s.registered.Nodup ∧ s.agents.Nodup ∧
    (∀ r ∈ s.registered, s.avail r + sumHold s r = s.cap r) ∧
    (∀ a, a ∉ s.agents → ∀ r, s.hold a r = 0) ∧
    (∀ r, r ∉ s.registered → ∀ a ∈ s.agents, s.hold a r = 0)

/-- `register_resource`: fails (state unchanged) if the id exists,
otherwise the new resource starts fully available. -/
def registerResource (s : MState) (r c : Nat) : MState :=
  if r ∈ s.registered then s
  else
    { s with
      registered := r :: s.registered
      cap := fun x => if x = r then c else s.cap x
      avail := fun x => if x = r then c else s.avail x }

/-- `register_agent`: assigns a fresh id (modelled by requiring the id
to be unused) and records the declared maximum needs. -/
def registerAgent (s : MState) (a : Nat) (m : Nat → Nat) : MState :=
  if a ∈ s.agents then s
  else
    { s with
      agents := a :: s.agents
      maxNeed := fun x => if x = a then m else s.maxNeed x }

/-- Grant `q` units of `r` to `a`: `A[r] -= q; H[a,r] += q`. -/
def applyGrant (s : MState) (a r q : Nat) : MState :=
  { s with
    avail := fun x => if x = r then s.avail r - q else s.avail x
    hold := fun x y => if x = a ∧ y = r then s.hold a r + q else s.hold x y }

/-- Admission checks of a single request (§4.2, protocol step 1 and the
availability test of step 2). -/
def grantOk (s : MState) (a r q : Nat) : Prop :=
  a ∈ s.agents ∧ r ∈ s.registered ∧ 1 ≤ q ∧
    s.hold a r + q ≤ s.maxNeed a r ∧ q ≤ s.cap r ∧ q ≤ s.avail r

instance (s : MState) (a r q : Nat) : Decidable (grantOk s a r q) :=
  inferInstanceAs (Decidable (a ∈ s.agents ∧ r ∈ s.registered ∧ 1 ≤ q ∧
    s.hold a r + q ≤ s.maxNeed a r ∧ q ≤ s.cap r ∧ q ≤ s.avail r))

/-- `request_resources` (immediate-grant path): granted exactly when the
admission checks pass and the hypothetical grant is safe; any other
outcome leaves the state unchanged. -/
def requestResources (s : MState) (a r q : Nat) : MState × RequestStatus :=
  if grantOk s a r q ∧ (check_safety (toInput (applyGrant s a r q))).is_safe = true
  then (applyGrant s a r q, RequestStatus.Granted)
  else (s, RequestStatus.Denied)

/-- Return `d` units of `r` from `a` to availability:
`A[r] += d; H[a,r] -= d`. -/
def applyRelease (s : MState) (a r d : Nat) : MState :=
  { s with
    avail := fun x => if x = r then s.avail r + d else s.avail x
    hold := fun x y => if x = a ∧ y = r then s.hold a r - d else s.hold x y }

/-- `release_resources`: clamped to the held amount, fails silently;
unknown agent or resource ids leave the state unchanged. -/
def releaseResources (s : MState) (a r q : Nat) : MState :=
  if a ∈ s.agents ∧ r ∈ s.registered then
    applyRelease s a r (min q (s.hold a r))
  else s

/-- `deregister_agent`: returns all held units to availability and
removes the agent. -/
def deregisterAgent (s : MState) (a : Nat) : MState :=
  if a ∈ s.agents then
    { s with
      agents := s.agents.erase a
      avail := fun r => s.avail r + s.hold a r
      hold := fun x y => if x = a then 0 else s.hold x y }
  else s

/-- Apply the grants of a batch one by one. -/
def applyGrants (a : Nat) : MState → List (Nat × Nat) → MState
  | s, [] => s
  | s, (r, q) :: rest => applyGrants a (applyGrant s a r q) rest

/-- Admission checks of a whole batch: every entry individually passes
its checks against the pre-state, over distinct resources. -/
def batchOk (s : MState) (a : Nat) (reqs : List (Nat × Nat)) : Prop :=
  a ∈ s.agents ∧ (reqs.map Prod.fst).Nodup ∧
    ∀ p ∈ reqs, p.1 ∈ s.registered ∧ 1 ≤ p.2 ∧
      s.hold a p.1 + p.2 ≤ s.maxNeed a p.1 ∧ p.2 ≤ s.cap p.1 ∧ p.2 ≤ s.avail p.1

instance (s : MState) (a : Nat) (reqs : List (Nat × Nat)) :
    Decidable (batchOk s a reqs) :=
  inferInstanceAs (Decidable (a ∈ s.agents ∧ (reqs.map Prod.fst).Nodup ∧
    ∀ p ∈ reqs, p.1 ∈ s.registered ∧ 1 ≤ p.2 ∧
      s.hold a p.1 + p.2 ≤ s.maxNeed a p.1 ∧ p.2 ≤ s.cap p.1 ∧ p.2 ≤ s.avail p.1))

/-- `request_resources_batch`: one hypothetical grant of the whole map;
granted only if the combined grant is safe and every resource has
sufficient availability.  Partial grants never occur: any non-granted
outcome returns the untouched pre-state. -/
def requestResourcesBatch (s : MState) (a : Nat) (reqs : List (Nat × Nat)) :
    MState × RequestStatus :=
  if batchOk s a reqs ∧ (check_safety (toInput (applyGrants a s reqs))).is_safe = true
  then (applyGrants a s reqs, RequestStatus.Granted)
  else (s, RequestStatus.Denied)

/-- The manager operations that mutate allocation state. -/
inductive Op where
  | regRes (r c : Nat)
  | regAgent (a : Nat) (m : Nat → Nat)
  | request (a r q : Nat)
  | release (a r q : Nat)
  | dereg (a : Nat)
  | batch (a : Nat) (reqs : List (Nat × Nat))

def step (s : MState) : Op → MState
  | .regRes r c => registerResource s r c
  | .regAgent a m => registerAgent s a m
  | .request a r q => (requestResources s a r q).1
  | .release a r q => releaseResources s a r q
  | .dereg a => deregisterAgent s a
  | .batch a reqs => (requestResourcesBatch s a reqs).1

def runOps (s : MState) : List Op → MState
  | [] => s
  | op :: rest => runOps (step s op) rest

/-- The freshly constructed manager: no resources, no agents. -/
def initState : MState :=
  { registered := []
    cap := fun _ => 0
    avail := fun _ => 0
    agents := []
    hold := fun _ _ => 0
    maxNeed := fun _ _ => 0 }

theorem sum_map_eq_add_of_mem {l : List Nat} (hnd : l.Nodup) {a : Nat} (ha : a ∈ l)
    {f g : Nat → Nat} {q : Nat} (hfa : f a = g a + q)
    (hother : ∀ x ∈ l, x ≠ a → f x = g x) :
    (l.map f).sum = (l.map g).sum + q := by
  induction l with
  | nil => exact absurd ha (List.not_mem_nil a)
  | cons b t ih =>
    rw [List.nodup_cons] at hnd
    rcases List.mem_cons.mp ha with rfl | hat
    · simp only [List.map_cons, List.sum_cons]
      have ht : ∀ x ∈ t, f x = g x := fun x hx =>
        hother x (List.mem_cons_of_mem _ hx) (fun hxa => absurd (hxa ▸ hx) hnd.1)
      rw [List.map_congr_left ht, hfa]
      omega
    · have hba : b ≠ a := fun h => hnd.1 (h ▸ hat)
      simp only [List.map_cons, List.sum_cons]
      rw [hother b (List.mem_cons_self b t) hba,
        ih hnd.2 hat (fun x hx hxa => hother x (List.mem_cons_of_mem _ hx) hxa)]
      omega

theorem WF_registerResource {s : MState} (hw : WF s) (r c : Nat) :
    WF (registerResource s r c) := by
  obtain ⟨h1, h2, h3, h4, h5⟩ := hw
  unfold registerResource
  by_cases hr : r ∈ s.registered
  · rw [if_pos hr]
    exact ⟨h1, h2, h3, h4, h5⟩
  · rw [if_neg hr]
    refine ⟨List.nodup_cons.mpr ⟨hr, h1⟩, h2, ?_, h4, ?_⟩
    · intro x hx
      rcases List.mem_cons.mp hx with rfl | hxm
      · have hz : sumHold { s with
            registered := x :: s.registered
            cap := fun y => if y = x then c else s.cap y
            avail := fun y => if y = x then c else s.avail y } x = 0 := by
          unfold sumHold
          refine List.sum_eq_zero fun v hv => ?_
          obtain ⟨b, hb, rfl⟩ := List.mem_map.mp hv
          exact h5 x hr b hb
        simp [hz]
      · have hxr : x ≠ r := fun h => hr (h ▸ hxm)
        simpa only [sumHold, if_neg hxr] using h3 x hxm
    · intro x hxm b hb
      have hx' : x ∉ s.registered := fun h => hxm (List.mem_cons_of_mem _ h)
      exact h5 x hx' b hb

theorem WF_registerAgent {s : MState} (hw : WF s) (a : Nat) (m : Nat → Nat) :
    WF (registerAgent s a m) := by
  obtain ⟨h1, h2, h3, h4, h5⟩ := hw
  unfold registerAgent
  by_cases ha : a ∈ s.agents
  · rw [if_pos ha]
    exact ⟨h1, h2, h3, h4, h5⟩
  · rw [if_neg ha]
    refine ⟨h1, List.nodup_cons.mpr ⟨ha, h2⟩, ?_, ?_, ?_⟩
    · intro r hr
      have : sumHold { s with
          agents := a :: s.agents
          maxNeed := fun x => if x = a then m else s.maxNeed x } r = sumHold s r := by
        unfold sumHold
        simp only [List.map_cons, List.sum_cons, h4 a ha r, Nat.zero_add]
      rw [this]
      exact h3 r hr
    · intro x hx r
      exact h4 x (fun h => hx (List.mem_cons_of_mem _ h)) r
    · intro r hr b hb
      rcases List.mem_cons.mp hb with rfl | hbm
      · exact h4 b ha r
      · exact h5 r hr b hbm

theorem WF_applyGrant {s : MState} (hw : WF s) {a r q : Nat}
    (ha : a ∈ s.agents) (hr : r ∈ s.registered) (hq : q ≤ s.avail r) :
    WF (applyGrant s a r q) := by
  obtain ⟨h1, h2, h3, h4, h5⟩ := hw
  refine ⟨h1, h2, ?_, ?_, ?_⟩
  · intro x hx
    by_cases hxr : x = r
    · subst hxr
      have hsum : sumHold (applyGrant s a x q) x = sumHold s x + q := by
        unfold sumHold applyGrant
        exact sum_map_eq_add_of_mem h2 ha (by simp) (fun t _ hta => by simp [hta])
      have hav : (applyGrant s a x q).avail x = s.avail x - q := by
        simp [applyGrant]
      have hcap : (applyGrant s a x q).cap x = s.cap x := rfl
      rw [hsum, hav, hcap]
      have := h3 x hx
      omega
    · have hsum : sumHold (applyGrant s a r q) x = sumHold s x := by
        unfold sumHold applyGrant
        exact congrArg List.sum (List.map_congr_left (fun t _ => by simp [hxr]))
      have hav : (applyGrant s a r q).avail x = s.avail x := by
        simp [applyGrant, hxr]
      have hcap : (applyGrant s a r q).cap x = s.cap x := rfl
      rw [hsum, hav, hcap]
      exact h3 x hx
  · intro x hx y
    have hxa : x ≠ a := fun h => hx (h ▸ ha)
    simpa [applyGrant, hxa] using h4 x hx y
  · intro x hx b hb
    have hxr : x ≠ r := fun h => hx (h ▸ hr)
    simpa [applyGrant, hxr] using h5 x hx b hb

theorem WF_requestResources {s : MState} (hw : WF s) (a r q : Nat) :
    WF (requestResources s a r q).1 := by
  unfold requestResources
  by_cases h : grantOk s a r q ∧
      (check_safety (toInput (applyGrant s a r q))).is_safe = true
  · rw [if_pos h]
    exact WF_applyGrant hw h.1.1 h.1.2.1 h.1.2.2.2.2.2
  · rw [if_neg h]
    exact hw

theorem WF_applyRelease {s : MState} (hw : WF s) {a r d : Nat}
    (ha : a ∈ s.agents) (hr : r ∈ s.registered) (hd : d ≤ s.hold a r) :
    WF (applyRelease s a r d) := by
  obtain ⟨h1, h2, h3, h4, h5⟩ := hw
  refine ⟨h1, h2, ?_, ?_, ?_⟩
  · intro x hx
    by_cases hxr : x = r
    · subst hxr
      have hsum : sumHold s x = sumHold (applyRelease s a x d) x + d := by
        unfold sumHold
        refine sum_map_eq_add_of_mem h2 ha ?_ (fun t _ hta => ?_)
        · simp [applyRelease, Nat.sub_add_cancel hd]
        · simp [applyRelease, hta]
      have hav : (applyRelease s a x d).avail x = s.avail x + d := by
        simp [applyRelease]
      have hcap : (applyRelease s a x d).cap x = s.cap x := rfl
      have := h3 x hx
      rw [hav, hcap]
      omega
    · have hsum : sumHold (applyRelease s a r d) x = sumHold s x := by
        unfold sumHold applyRelease
        exact congrArg List.sum (List.map_congr_left (fun t _ => by simp [hxr]))
      have hav : (applyRelease s a r d).avail x = s.avail x := by
        simp [applyRelease, hxr]
      have hcap : (applyRelease s a r d).cap x = s.cap x := rfl
      rw [hsum, hav, hcap]
      exact h3 x hx
  · intro x hx y
    have hxa : x ≠ a := fun h => hx (h ▸ ha)
    simpa [applyRelease, hxa] using h4 x hx y
  · intro x hx b hb
    have hxr : x ≠ r := fun h => hx (h ▸ hr)
    simpa [applyRelease, hxr] using h5 x hx b hb

theorem WF_releaseResources {s : MState} (hw : WF s) (a r q : Nat) :
    WF (releaseResources s a r q) := by
  unfold releaseResources
  by_cases hok : a ∈ s.agents ∧ r ∈ s.registered
  · rw [if_pos hok]
    exact WF_applyRelease hw hok.1 hok.2 (Nat.min_le_right _ _)
  · rw [if_neg hok]
    exact hw

theorem WF_deregisterAgent {s : MState} (hw : WF s) (a : Nat) :
    WF (deregisterAgent s a) := by
  obtain ⟨h1, h2, h3, h4, h5⟩ := hw
  unfold deregisterAgent
  by_cases ha : a ∈ s.agents
  · rw [if_pos ha]
    refine ⟨h1, h2.erase a, ?_, ?_, ?_⟩
    · intro x hx
      have hsum : sumHold s x =
          ((s.agents.erase a).map (fun t => if t = a then 0 else s.hold t x)).sum
            + s.hold a x := by
        have hperm := (List.perm_cons_erase ha).map (fun t => s.hold t x)
        unfold sumHold
        rw [hperm.sum_eq]
        simp only [List.map_cons, List.sum_cons]
        rw [Nat.add_comm]
        congr 1
        refine congrArg List.sum (List.map_congr_left (fun t ht => ?_))
        have hta : t ≠ a := ((h2.mem_erase_iff).mp ht).1
        simp [hta]
      have := h3 x hx
      simp only [sumHold]
      omega
    · intro x hx y
      by_cases hxa : x = a
      · simp [hxa]
      · have hx' : x ∉ s.agents := by
          intro hmem
          exact hx ((List.mem_erase_of_ne hxa).mpr hmem)
        simpa [hxa] using h4 x hx' y
    · intro x hx b hb
      have hba : b ≠ a := ((h2.mem_erase_iff).mp hb).1
      have hbm : b ∈ s.agents := ((h2.mem_erase_iff).mp hb).2
      simpa [hba] using h5 x hx b hbm
  · rw [if_neg ha]
    exact ⟨h1, h2, h3, h4, h5⟩

theorem applyGrant_avail_ne (s : MState) (a r q : Nat) {x : Nat} (hx : x ≠ r) :
    (applyGrant s a r q).avail x = s.avail x := by
  simp [applyGrant, hx]

theorem WF_applyGrants {a : Nat} :
    ∀ {reqs : List (Nat × Nat)} {s : MState}, WF s → a ∈ s.agents →
      (reqs.map Prod.fst).Nodup →
      (∀ p ∈ reqs, p.1 ∈ s.registered ∧ p.2 ≤ s.avail p.1) →
      WF (applyGrants a s reqs) := by
  intro reqs
  induction reqs with
  | nil => intro s hw _ _ _; exact hw
  | cons hd rest ih =>
    intro s hw ha hnd hcond
    obtain ⟨r, q⟩ := hd
    simp only [List.map_cons, List.nodup_cons] at hnd
    obtain ⟨hr, hq⟩ := hcond (r, q) (List.mem_cons_self _ _)
    simp only [applyGrants]
    refine ih (WF_applyGrant hw ha hr hq) ha hnd.2 (fun p hp => ?_)
    obtain ⟨hp1, hp2⟩ := hcond p (List.mem_cons_of_mem _ hp)
    have hpr : p.1 ≠ r := by
      intro h
      exact hnd.1 (h ▸ List.mem_map_of_mem Prod.fst hp)
    exact ⟨hp1, by rwa [applyGrant_avail_ne s a r q hpr]⟩

theorem WF_requestResourcesBatch {s : MState} (hw : WF s) (a : Nat)
    (reqs : List (Nat × Nat)) : WF (requestResourcesBatch s a reqs).1 := by
  unfold requestResourcesBatch
  by_cases h : batchOk s a reqs ∧
      (check_safety (toInput (applyGrants a s reqs))).is_safe = true
  · rw [if_pos h]
    exact WF_applyGrants hw h.1.1 h.1.2.1
      (fun p hp => ⟨(h.1.2.2 p hp).1, (h.1.2.2 p hp).2.2.2.2⟩)
  · rw [if_neg h]
    exact hw

theorem WF_step {s : MState} (hw : WF s) (op : Op) : WF (step s op) := by
  cases op with
  | regRes r c => exact WF_registerResource hw r c
  | regAgent a m => exact WF_registerAgent hw a m
  | request a r q => exact WF_requestResources hw a r q
  | release a r q => exact WF_releaseResources hw a r q
  | dereg a => exact WF_deregisterAgent hw a
  | batch a reqs => exact WF_requestResourcesBatch hw a reqs

theorem WF_initState : WF initState := by
  refine ⟨List.nodup_nil, List.nodup_nil, ?_, ?_, ?_⟩
  · intro r hr
    exact absurd hr (List.not_mem_nil r)
  · intro a _ r
    rfl
  · intro r _ a ha
    exact absurd ha (List.not_mem_nil a)

theorem WF_runOps : ∀ (ops : List Op) {s : MState}, WF s → WF (runOps s ops) := by
  intro ops
  induction ops with
  | nil => intro s hw; exact hw
  | cons op rest ih => intro s hw; exact ih (WF_step hw op)

/-- C2: after any sequence of manager operations from the initial state,
every registered resource satisfies the accounting invariant
`A[r] + Σ_a H[a,r] = C[r]` together with `A[r] ≤ C[r]`
(`0 ≤ A[r]` holds by the ℕ-valued model). -/
theorem manager_accounting_invariant (ops : List Op) (r : Nat)
    (hr : r ∈ (runOps initState ops).registered) :
    (runOps initState ops).avail r + sumHold (runOps initState ops) r
        = (runOps initState ops).cap r
      ∧ (runOps initState ops).avail r ≤ (runOps initState ops).cap r := by
  have hwf := WF_runOps ops WF_initState
  obtain ⟨-, -, h3, -, -⟩ := hwf
  have heq := h3 r hr
  exact ⟨heq, by omega⟩

/-- A concrete run: register resource 1 (capacity 10), register agent 7
(max need 5 on resource 1), grant it 3 units. -/
def opsW : List Op :=
  [Op.regRes 1 10, Op.regAgent 7 (fun z => if z = 1 then 5 else 0), Op.request 7 1 3]

/-- Witness for C2: the accounting invariant evaluated on a concrete
run that registers a resource and an agent and grants a request. -/
theorem manager_accounting_invariant_witness :
    1 ∈ (runOps initState opsW).registered ∧
      ((runOps initState opsW).avail 1 + sumHold (runOps initState opsW) 1
          = (runOps initState opsW).cap 1
        ∧ (runOps initState opsW).avail 1 ≤ (runOps initState opsW).cap 1) :=
  ⟨by decide, manager_accounting_invariant opsW 1 (by decide)⟩

/-! ### Batch atomicity -/

/-- A concrete two-resource state: capacities `R1 = 10`, `R2 = 20`,
agent 7 with maxima 5 and 10, nothing held. -/
def batchState : MState :=
  runOps initState
    [Op.regRes 1 10, Op.regRes 2 20,
     Op.regAgent 7 (fun z => if z = 1 then 5 else if z = 2 then 10 else 0)]

/-- C3: `request_resources_batch` is all-or-nothing: any non-granted
outcome returns the pre-state untouched (no partial grant), and a grant
happens only when the combined hypothetical grant is safe and every
requested resource has sufficient availability; the two-resource batch
of the test-suite is granted. -/
theorem request_batch_atomic :
    (∀ (s : MState) (a : Nat) (reqs : List (Nat × Nat)),
        (requestResourcesBatch s a reqs).2 ≠ RequestStatus.Granted →
        (requestResourcesBatch s a reqs).1 = s)
    ∧ (∀ (s : MState) (a : Nat) (reqs : List (Nat × Nat)),
        (requestResourcesBatch s a reqs).2 = RequestStatus.Granted →
        (requestResourcesBatch s a reqs).1 = applyGrants a s reqs
          ∧ (check_safety (toInput (applyGrants a s reqs))).is_safe = true
          ∧ ∀ p ∈ reqs, p.2 ≤ s.avail p.1)
    ∧ (requestResourcesBatch batchState 7 [(1, 2), (2, 5)]).2
        = RequestStatus.Granted := by
  refine ⟨fun s a reqs h => ?_, fun s a reqs h => ?_, by decide⟩
  · unfold requestResourcesBatch at h ⊢
    by_cases hc : batchOk s a reqs ∧
        (check_safety (toInput (applyGrants a s reqs))).is_safe = true
    · rw [if_pos hc] at h
      exact absurd rfl h
    · rw [if_neg hc]
  · unfold requestResourcesBatch at h ⊢
    by_cases hc : batchOk s a reqs ∧
        (check_safety (toInput (applyGrants a s reqs))).is_safe = true
    · rw [if_pos hc]
      exact ⟨rfl, hc.2, fun p hp => (hc.1.2.2 p hp).2.2.2.2⟩
    · rw [if_neg hc] at h
      exact absurd h (by simp)

/-! ### The `acquire` context manager (guard.py)

`AgentGuard.acquire` issues a synchronous request, raises
`AgentGuardError` when the status is not `Granted` (before yielding),
and otherwise yields to the body and releases the same quantity in a
`finally` block — on normal completion and on exception alike. -/

inductive AcqEvent where
  | requested (st : RequestStatus)
  | bodyRan
  | released
deriving DecidableEq

/-- One run of `with guard.acquire(agent, resource, q)`: returns the
final manager state, the trace of actions the wrapper performed, and
whether the `with`-statement raised (`AgentGuardError` on a failed
request, or the body's own exception when `bodyFails`). -/
def acquireRun (s : MState) (a r q : Nat) (bodyFails : Bool) :
    MState × List AcqEvent × Bool :=
  let first := requestResources s a r q
  if first.2 = RequestStatus.Granted then
    (releaseResources first.1 a r q,
      [AcqEvent.requested first.2, AcqEvent.bodyRan, AcqEvent.released], bodyFails)
  else
    (first.1, [AcqEvent.requested first.2], true)

/-- C5: after a granted request of `q`, the `finally`-release of the
`acquire` context manager restores the available count of every
resource to its pre-request value, and the release event is in the
trace for both exit modes (`bodyFails` covers normal completion and an
exception in the body). -/
theorem acquire_release_restores (s : MState) (a r q : Nat) (bf : Bool)
    (h : (requestResources s a r q).2 = RequestStatus.Granted) :
    (∀ x, (acquireRun s a r q bf).1.avail x = s.avail x)
    ∧ (acquireRun s a r q bf).2.1
        = [AcqEvent.requested RequestStatus.Granted, AcqEvent.bodyRan,
            AcqEvent.released] := by
  have hc : grantOk s a r q ∧
      (check_safety (toInput (applyGrant s a r q))).is_safe = true := by
    by_contra hcn
    unfold requestResources at h
    rw [if_neg hcn] at h
    exact absurd h (by simp)
  have hreq : requestResources s a r q = (applyGrant s a r q, RequestStatus.Granted) := by
    unfold requestResources
    rw [if_pos hc]
  obtain ⟨hok, -⟩ := hc
  have hgr : (acquireRun s a r q bf).1 =
      releaseResources (applyGrant s a r q) a r q := by
    simp [acquireRun, hreq]
  have htr : (acquireRun s a r q bf).2.1 =
      [AcqEvent.requested RequestStatus.Granted, AcqEvent.bodyRan,
        AcqEvent.released] := by
    simp [acquireRun, hreq]
  refine ⟨fun x => ?_, htr⟩
  rw [hgr]
  unfold releaseResources
  have hmem : a ∈ (applyGrant s a r q).agents ∧ r ∈ (applyGrant s a r q).registered :=
    ⟨hok.1, hok.2.1⟩
  rw [if_pos hmem]
  have hhold : (applyGrant s a r q).hold a r = s.hold a r + q := by
    simp [applyGrant]
  have hmin : min q ((applyGrant s a r q).hold a r) = q := by
    rw [hhold]
    omega
  rw [hmin]
  have hq : q ≤ s.avail r := hok.2.2.2.2.2
  by_cases hx : x = r
  · subst hx
    simp [applyRelease, applyGrant, Nat.sub_add_cancel hq]
  · simp [applyRelease, applyGrant, hx]

/-- A concrete manager state for the acquire round-trip: resource 1 of
capacity 10, agent 7 with declared maximum 5. -/
def acqState : MState :=
  runOps initState [Op.regRes 1 10, Op.regAgent 7 (fun z => if z = 1 then 5 else 0)]

/-- Witness for C5: a concrete granted request of 3 units whose
release (here on the exception path) restores availability. -/
theorem acquire_release_restores_witness :
    (requestResources acqState 7 1 3).2 = RequestStatus.Granted ∧
      (acquireRun acqState 7 1 3 true).1.avail 1 = acqState.avail 1 ∧
      (acquireRun acqState 7 1 3 true).2.1
        = [AcqEvent.requested RequestStatus.Granted, AcqEvent.bodyRan,
            AcqEvent.released] :=
  ⟨by decide, (acquire_release_restores acqState 7 1 3 true (by decide)).1 1,
    (acquire_release_restores acqState 7 1 3 true (by decide)).2⟩

/-- C9: when the request is not granted, the `acquire` wrapper raises
before yielding: the body never runs, no release is performed, and the
manager state is exactly the pre-request state. -/
theorem acquire_failure_leaves_state (s : MState) (a r q : Nat) (bf : Bool)
    (h : (requestResources s a r q).2 ≠ RequestStatus.Granted) :
    (acquireRun s a r q bf).1 = s
    ∧ (acquireRun s a r q bf).2.1 = [AcqEvent.requested (requestResources s a r q).2]
    ∧ (acquireRun s a r q bf).2.2 = true := by
  have hreq : requestResources s a r q = (s, RequestStatus.Denied) := by
    unfold requestResources at h ⊢
    by_cases hcond : grantOk s a r q ∧
        (check_safety (toInput (applyGrant s a r q))).is_safe = true
    · rw [if_pos hcond] at h
      exact absurd rfl h
    · rw [if_neg hcond]
  refine ⟨?_, ?_, ?_⟩ <;> simp [acquireRun, hreq]

/-- Witness for C9: requesting from the empty manager (unregistered
agent and resource) is denied and leaves the state untouched. -/
theorem acquire_failure_leaves_state_witness :
    (requestResources initState 0 1 1).2 ≠ RequestStatus.Granted ∧
      (acquireRun initState 0 1 1 false).1 = initState ∧
      (acquireRun initState 0 1 1 false).2.2 = true :=
  ⟨by decide, (acquire_failure_leaves_state initState 0 1 1 false (by decide)).1,
    (acquire_failure_leaves_state initState 0 1 1 false (by decide)).2.2⟩

/-! ### Delegation graph

Modelled from the spec: the native delegation graph is not under
`src/`; §4.4 defines `report_delegation` with cycle detection via a
depth-first search from `to` looking for `from`, and the
`RejectDelegation` action (the configuration of the cited test). -/

/-- Out-neighbours of `s` in the edge list. -/
def successors (edges : List (Nat × Nat)) (s : Nat) : List Nat :=
  edges.filterMap (fun e => if e.1 = s then some e.2 else none)

/-- Depth-first search for a path from `s` to `d` of at most `fuel`
edges, returned as the list of visited nodes (including both ends). -/
def findPathFuel (edges : List (Nat × Nat)) : Nat → Nat → Nat → Option (List Nat)
  | 0, s, d => if s = d then some [s] else none
  | fuel + 1, s, d =>
    if s = d then some [s]
    else
      match (successors edges s).filterMap
          (fun t => (findPathFuel edges fuel t d).map (fun p => s :: p)) with
      | [] => none
      | p :: _ => some p

/-- `p` is a walk from `s` to `d` along the edge list. -/
def IsPath (edges : List (Nat × Nat)) (s d : Nat) (p : List Nat) : Prop :=
  p.head? = some s ∧ p.getLast? = some d ∧
    List.Chain' (fun a b => (a, b) ∈ edges) p

instance (edges : List (Nat × Nat)) (s d : Nat) (p : List Nat) :
    Decidable (IsPath edges s d p) :=
  inferInstanceAs (Decidable (p.head? = some s ∧ p.getLast? = some d ∧
    List.Chain' (fun a b => (a, b) ∈ edges) p))

/-- All nodes of the graph (endpoints of edges), deduplicated. -/
def nodeList (edges : List (Nat × Nat)) : List Nat :=
  (edges.flatMap (fun e => [e.1, e.2])).dedup

structure DelegationResult where
  accepted : Bool
  cycle_detected : Bool
  cycle_path : List Nat

/-- Modelled from the spec: `report_delegation(from, to, task)` under
`cycle_action = RejectDelegation` (§4.4).  A DFS from `to` looks for
`from`; if a path is found the edge is rejected and the closed cycle
(path from `to` to `from`, then the new edge back to `to`) is
returned; otherwise the edge is added. -/
def report_delegation (edges : List (Nat × Nat)) (f t : Nat) :
    DelegationResult × List (Nat × Nat) :=
  match findPathFuel edges (nodeList edges).length t f with
  | some p => (⟨false, true, p ++ [t]⟩, edges)
  | none => (⟨true, false, []⟩, edges ++ [(f, t)])

theorem mem_successors {edges : List (Nat × Nat)} {s t : Nat} :
    t ∈ successors edges s ↔ (s, t) ∈ edges := by
  unfold successors
  rw [List.mem_filterMap]
  constructor
  · rintro ⟨⟨e1, e2⟩, he, hf⟩
    by_cases h1 : e1 = s
    · subst h1
      rw [if_pos rfl] at hf
      cases hf
      exact he
    · rw [if_neg (by simpa using h1)] at hf
      cases hf
  · intro h
    exact ⟨(s, t), h, by simp⟩

theorem head_filterMap_mem {α β : Type} {f : α → Option β} :
    ∀ {l : List α} {b : β} {bs : List β}, l.filterMap f = b :: bs →
      ∃ x ∈ l, f x = some b := by
  intro l
  induction l with
  | nil => intro b bs h; cases h
  | cons a t ih =>
    intro b bs h
    rw [List.filterMap_cons] at h
    cases hfa : f a with
    | none =>
      rw [hfa] at h
      obtain ⟨x, hx, hfx⟩ := ih h
      exact ⟨x, List.mem_cons_of_mem _ hx, hfx⟩
    | some c =>
      rw [hfa] at h
      cases h
      exact ⟨a, List.mem_cons_self _ _, hfa⟩

theorem findPathFuel_sound {edges : List (Nat × Nat)} :
    ∀ {fuel s d : Nat} {p : List Nat}, findPathFuel edges fuel s d = some p →
      IsPath edges s d p := by
  intro fuel
  induction fuel with
  | zero =>
    intro s d p h
    simp only [findPathFuel] at h
    by_cases hsd : s = d
    · rw [if_pos hsd] at h
      cases h
      exact ⟨rfl, by simp [hsd], List.chain'_singleton s⟩
    · rw [if_neg hsd] at h
      cases h
  | succ fuel ih =>
    intro s d p h
    simp only [findPathFuel] at h
    by_cases hsd : s = d
    · rw [if_pos hsd] at h
      cases h
      exact ⟨rfl, by simp [hsd], List.chain'_singleton s⟩
    · rw [if_neg hsd] at h
      cases hfm : (successors edges s).filterMap
          (fun t => (findPathFuel edges fuel t d).map (fun q => s :: q)) with
      | nil => rw [hfm] at h; cases h
      | cons q qs =>
        rw [hfm] at h
        cases h
        obtain ⟨t, htm, htf⟩ := head_filterMap_mem hfm
        obtain ⟨p', hp', rfl⟩ := Option.map_eq_some'.mp htf
        obtain ⟨hh, hl, hc⟩ := ih hp'
        cases p' with
        | nil => cases hh
        | cons t0 rest =>
          cases hh
          refine ⟨rfl, ?_, ?_⟩
          · rw [List.getLast?_cons_cons]
            exact hl
          · rw [List.chain'_cons]
            exact ⟨mem_successors.mp htm, hc⟩

theorem findPathFuel_complete {edges : List (Nat × Nat)} :
    ∀ {fuel : Nat} {p : List Nat} {s d : Nat}, IsPath edges s d p →
      p.length ≤ fuel + 1 → (findPathFuel edges fuel s d).isSome = true := by
  intro fuel
  induction fuel with
  | zero =>
    intro p s d hp hl
    obtain ⟨hh, hlast, -⟩ := hp
    cases p with
    | nil => cases hh
    | cons x rest =>
      cases rest with
      | nil =>
        cases hh
        simp only [List.getLast?_singleton, Option.some.injEq] at hlast
        simp [findPathFuel, hlast]
      | cons y rest' => simp at hl
  | succ fuel ih =>
    intro p s d hp hl
    by_cases hsd : s = d
    · simp [findPathFuel, hsd]
    · obtain ⟨hh, hlast, hc⟩ := hp
      cases p with
      | nil => cases hh
      | cons x rest =>
        cases hh
        cases rest with
        | nil =>
          simp only [List.getLast?_singleton, Option.some.injEq] at hlast
          exact absurd hlast hsd
        | cons y rest' =>
          rw [List.chain'_cons] at hc
          rw [List.getLast?_cons_cons] at hlast
          have hpath : IsPath edges y d (y :: rest') := ⟨rfl, hlast, hc.2⟩
          have hlen : (y :: rest').length ≤ fuel + 1 := by
            simpa using Nat.le_of_succ_le_succ hl
          have hsome := ih hpath hlen
          obtain ⟨p', hp'⟩ := Option.isSome_iff_exists.mp hsome
          have hymem : y ∈ successors edges s := mem_successors.mpr hc.1
          have hmem : (s :: p') ∈ (successors edges s).filterMap
              (fun t => (findPathFuel edges fuel t d).map (fun q => s :: q)) := by
            rw [List.mem_filterMap]
            exact ⟨y, hymem, by rw [hp']; rfl⟩
          simp only [findPathFuel, if_neg hsd]
          cases hfm : (successors edges s).filterMap
              (fun t => (findPathFuel edges fuel t d).map (fun q => s :: q)) with
          | nil => rw [hfm] at hmem; cases hmem
          | cons q qs => rfl

theorem exists_dup_split {l : List Nat} (h : ¬ l.Nodup) :
    ∃ xs v ys zs, l = xs ++ v :: ys ++ v :: zs := by
  induction l with
  | nil => exact absurd List.nodup_nil h
  | cons a t ih =>
    by_cases hat : a ∈ t
    · obtain ⟨ys, zs, rfl⟩ := List.append_of_mem hat
      exact ⟨[], a, ys, zs, rfl⟩
    · have hnt : ¬ t.Nodup := fun hn => h (List.nodup_cons.mpr ⟨hat, hn⟩)
      obtain ⟨xs, v, ys, zs, rfl⟩ := ih hnt
      exact ⟨a :: xs, v, ys, zs, rfl⟩

theorem getLast?_append_right {α : Type} {l l' : List α} (h : l' ≠ []) :
    (l ++ l').getLast? = l'.getLast? := by
  rw [List.getLast?_append]
  cases hl : l'.getLast? with
  | none => exact absurd (List.getLast?_eq_none_iff.mp hl) h
  | some x => rfl

/-- Cutting out the loop between two occurrences of the same node keeps
a walk a walk. -/
theorem path_cut {edges : List (Nat × Nat)} {s d v : Nat} {xs ys zs : List Nat}
    (h : IsPath edges s d (xs ++ v :: ys ++ v :: zs)) :
    IsPath edges s d (xs ++ v :: zs) := by
  obtain ⟨hh, hlast, hc⟩ := h
  have hsplit : xs ++ v :: ys ++ v :: zs = xs ++ ((v :: ys) ++ (v :: zs)) := by simp
  rw [hsplit] at hc hlast
  rw [List.chain'_append] at hc
  obtain ⟨hcx, hcbc, hlink⟩ := hc
  rw [List.chain'_append] at hcbc
  obtain ⟨hcb, hcc, hlink2⟩ := hcbc
  refine ⟨?_, ?_, ?_⟩
  · cases xs with
    | nil =>
      simp only [List.nil_append] at hh ⊢
      exact hh
    | cons a xs' => simpa using hh
  · rw [getLast?_append_right (by simp)] at hlast
    rw [getLast?_append_right (l := xs) (by simp)]
    rw [getLast?_append_right (l := v :: ys) (by simp)] at hlast
    exact hlast
  · rw [List.chain'_append]
    refine ⟨hcx, hcc, fun x hx y hy => ?_⟩
    refine hlink x hx y ?_
    simpa using hy

theorem exists_nodup_path {edges : List (Nat × Nat)} {s d : Nat} :
    ∀ (n : Nat) (p : List Nat), p.length ≤ n → IsPath edges s d p →
      ∃ q, IsPath edges s d q ∧ q.Nodup := by
  intro n
  induction n with
  | zero =>
    intro p hl hp
    have : p = [] := List.eq_nil_of_length_eq_zero (Nat.le_zero.mp hl)
    subst this
    cases hp.1
  | succ n ih =>
    intro p hl hp
    by_cases hnd : p.Nodup
    · exact ⟨p, hp, hnd⟩
    · obtain ⟨xs, v, ys, zs, rfl⟩ := exists_dup_split hnd
      refine ih (xs ++ v :: zs) ?_ (path_cut hp)
      simp only [List.length_append, List.length_cons] at hl ⊢
      omega

theorem mem_nodeList_left {edges : List (Nat × Nat)} {a b : Nat}
    (h : (a, b) ∈ edges) : a ∈ nodeList edges := by
  unfold nodeList
  rw [List.mem_dedup, List.mem_flatMap]
  exact ⟨(a, b), h, by simp⟩

theorem mem_nodeList_right {edges : List (Nat × Nat)} {a b : Nat}
    (h : (a, b) ∈ edges) : b ∈ nodeList edges := by
  unfold nodeList
  rw [List.mem_dedup, List.mem_flatMap]
  exact ⟨(a, b), h, by simp⟩

theorem path_subset_nodeList {edges : List (Nat × Nat)} {d : Nat} :
    ∀ (p : List Nat) (s : Nat), IsPath edges s d p → 2 ≤ p.length →
      ∀ v ∈ p, v ∈ nodeList edges := by
  intro p
  induction p with
  | nil => intro s hp _ v hv; cases hv
  | cons a t ih =>
    intro s hp hlen v hv
    cases t with
    | nil => simp at hlen
    | cons b t' =>
      obtain ⟨hh, hlast, hc⟩ := hp
      rw [List.chain'_cons] at hc
      rcases List.mem_cons.mp hv with rfl | hvt
      · exact mem_nodeList_left hc.1
      · cases t' with
        | nil =>
          rcases List.mem_cons.mp hvt with rfl | hvn
          · exact mem_nodeList_right hc.1
          · cases hvn
        | cons c t'' =>
          have hpath : IsPath edges b d (b :: c :: t'') :=
            ⟨rfl, by rw [List.getLast?_cons_cons] at hlast; exact hlast, hc.2⟩
          exact ih b hpath (by simp) v hvt

theorem nodup_path_length_le {edges : List (Nat × Nat)} {s d : Nat}
    {p : List Nat} (hp : IsPath edges s d p) (hnd : p.Nodup) :
    p.length ≤ (nodeList edges).length + 1 := by
  by_cases hlen : 2 ≤ p.length
  · have hsub : p ⊆ nodeList edges := fun v hv =>
      path_subset_nodeList p s hp hlen v hv
    have := (hnd.subperm hsub).length_le
    omega
  · omega

/-- C6: when adding `from → to` would create a cycle (some walk leads
from `to` back to `from`) and the cycle action is `RejectDelegation`,
`report_delegation` leaves the graph unchanged and reports
`accepted = false`, `cycle_detected = true` with a non-empty
`cycle_path` that is a genuine closed walk through the offending edge;
on the edges `A0→A1, A1→A2` the call `report_delegation(A2, A0)`
returns exactly the cycle path `[A0, A1, A2, A0]`. -/
theorem report_delegation_reject_on_cycle (edges : List (Nat × Nat)) (f t : Nat)
    (h : ∃ p, IsPath edges t f p) :
    (report_delegation edges f t).1.accepted = false
    ∧ (report_delegation edges f t).1.cycle_detected = true
    ∧ (report_delegation edges f t).1.cycle_path ≠ []
    ∧ (report_delegation edges f t).2 = edges
    ∧ IsPath (edges ++ [(f, t)]) t t ((report_delegation edges f t).1.cycle_path)
    ∧ (report_delegation [(0, 1), (1, 2)] 2 0).1.cycle_path = [0, 1, 2, 0] := by
  obtain ⟨p0, hp0⟩ := h
  obtain ⟨q, hq, hqnd⟩ := exists_nodup_path p0.length p0 (le_refl _) hp0
  have hqlen : q.length ≤ (nodeList edges).length + 1 := nodup_path_length_le hq hqnd
  have hsome := findPathFuel_complete hq hqlen
  obtain ⟨p, hp⟩ := Option.isSome_iff_exists.mp hsome
  have hrep : report_delegation edges f t = (⟨false, true, p ++ [t]⟩, edges) := by
    unfold report_delegation
    rw [hp]
  have hpath := findPathFuel_sound hp
  obtain ⟨hh, hlast, hc⟩ := hpath
  have hpne : p ≠ [] := by
    intro hnil
    rw [hnil] at hh
    cases hh
  refine ⟨by rw [hrep], by rw [hrep], by rw [hrep]; simp, by rw [hrep], ?_, by decide⟩
  rw [hrep]
  refine ⟨?_, ?_, ?_⟩
  · cases p with
    | nil => cases hh
    | cons x rest => simpa using hh
  · rw [getLast?_append_right (by simp)]
    rfl
  · rw [List.chain'_append]
    refine ⟨hc.imp (fun a b hab => List.mem_append_left _ hab), List.chain'_singleton t,
      fun x hx y hy => ?_⟩
    simp only [List.head?_cons, Option.mem_def, Option.some.injEq] at hy
    rw [hlast] at hx
    simp only [Option.mem_def, Option.some.injEq] at hx
    subst hx
    subst hy
    exact List.mem_append_right _ (List.mem_singleton_self _)

/-- Witness for C6: the concrete two-edge graph of the test-suite,
where delegating `A2 → A0` closes the cycle. -/
theorem report_delegation_reject_witness :
    (∃ p, IsPath [(0, 1), (1, 2)] 0 2 p) ∧
      (report_delegation [(0, 1), (1, 2)] 2 0).1.accepted = false ∧
      (report_delegation [(0, 1), (1, 2)] 2 0).1.cycle_detected = true ∧
      (report_delegation [(0, 1), (1, 2)] 2 0).2 = [(0, 1), (1, 2)] ∧
      (report_delegation [(0, 1), (1, 2)] 2 0).1.cycle_path = [0, 1, 2, 0] := by
  have hex : ∃ p, IsPath [(0, 1), (1, 2)] 0 2 p := by
    refine ⟨[0, 1, 2], ?_⟩
    unfold IsPath
    refine ⟨rfl, rfl, ?_⟩
    simp [List.chain'_cons]
  have := report_delegation_reject_on_cycle [(0, 1), (1, 2)] 2 0 hex
  exact ⟨hex, this.1, this.2.1, this.2.2.2.1, this.2.2.2.2.2⟩

/-! ### Demand estimator

Modelled from the spec: the native `DemandEstimator` is not under
`src/`; §4.5 defines a per `(agent, resource)` bounded sample window,
and `estimate_max_need` as the empirical quantile at confidence `c`
clamped to `[H[a,r], C[r]]`, falling back to the declared maximum
below the minimum-sample threshold.  Confidences are rationals given
as numerator/denominator. -/

structure Confidence where
  num : Nat
  den : Nat

/-- Zero-based rank of the empirical quantile at `c` in a sorted window
of `n` samples: `⌈c·n⌉ - 1`, kept inside the window. -/
def quantileIndex (c : Confidence) (n : Nat) : Nat :=
  min (n - 1) ((c.num * n + c.den - 1) / c.den - 1)

/-- Empirical quantile of the window at confidence `c`. -/
def empiricalQuantile (c : Confidence) (l : List Nat) : Nat :=
  (List.insertionSort (· ≤ ·) l).getD (quantileIndex c l.length) 0

structure EstimatorState where
  samples : Nat → Nat → List Nat
  windowSize : Nat
  minSamples : Nat
  declaredMax : Nat → Nat → Nat
  holdings : Nat → Nat → Nat
  capacity : Nat → Nat

/-- `record_request(agent, resource, q)`: push the observation into the
ring buffer, keeping at most `history_window_size` samples. -/
def record_request (s : EstimatorState) (a r q : Nat) : EstimatorState :=
  { s with
    samples := fun x y =>
      if x = a ∧ y = r then (q :: s.samples a r).take s.windowSize
      else s.samples x y }

/-- `estimate_max_need(agent, resource, c)`: below the minimum-sample
threshold the declared maximum (fail-safe); otherwise the empirical
quantile clamped to at least `H[a,r]` and at most `C[r]`. -/
def estimate_max_need (s : EstimatorState) (a r : Nat) (c : Confidence) : Nat :=
  if (s.samples a r).length < s.minSamples then s.declaredMax a r
  else min (max (empiricalQuantile c (s.samples a r)) (s.holdings a r)) (s.capacity r)

/-- Record the same observation `n` times. -/
def recordRep (s : EstimatorState) (a r q : Nat) : Nat → EstimatorState
  | 0 => s
  | n + 1 => record_request (recordRep s a r q n) a r q

theorem empiricalQuantile_mem (c : Confidence) {l : List Nat} (h : l ≠ []) :
    empiricalQuantile c l ∈ l := by
  unfold empiricalQuantile
  have hlen : (List.insertionSort (· ≤ ·) l).length = l.length :=
    (List.perm_insertionSort _ l).length_eq
  have hpos : 1 ≤ l.length := List.length_pos.mpr h
  have hidx : quantileIndex c l.length < (List.insertionSort (· ≤ ·) l).length := by
    rw [hlen]
    unfold quantileIndex
    omega
  rw [List.getD_eq_getElem _ _ hidx]
  exact (List.perm_insertionSort (· ≤ ·) l).mem_iff.mp (List.getElem_mem hidx)

theorem recordRep_samples_eq (s : EstimatorState) (a r q : Nat)
    (hbound : (s.samples a r).length ≤ s.windowSize) :
    ∀ n, (∀ x ∈ s.samples a r, x = q) →
      (∀ x ∈ (recordRep s a r q n).samples a r, x = q)
        ∧ ((recordRep s a r q n).samples a r).length
            = min ((s.samples a r).length + n) s.windowSize
        ∧ (recordRep s a r q n).windowSize = s.windowSize
        ∧ (recordRep s a r q n).minSamples = s.minSamples
        ∧ (recordRep s a r q n).holdings = s.holdings
        ∧ (recordRep s a r q n).capacity = s.capacity := by
  intro n
  induction n with
  | zero =>
    intro hall
    refine ⟨hall, ?_, rfl, rfl, rfl, rfl⟩
    simp only [recordRep]
    omega
  | succ n ih =>
    intro hall
    obtain ⟨ihall, ihlen, ihw, ihm, ihh, ihc⟩ := ih hall
    have hsamp : (recordRep s a r q (n + 1)).samples a r =
        (q :: (recordRep s a r q n).samples a r).take
          (recordRep s a r q n).windowSize := by
      simp [recordRep, record_request]
    refine ⟨?_, ?_, ?_, ?_, ?_, ?_⟩
    · intro x hx
      rw [hsamp] at hx
      have hx' := List.take_subset _ _ hx
      rcases List.mem_cons.mp hx' with rfl | hxm
      · rfl
      · exact ihall x hxm
    · rw [hsamp, List.length_take, List.length_cons, ihlen, ihw]
      omega
    · simpa [recordRep, record_request] using ihw
    · simpa [recordRep, record_request] using ihm
    · simpa [recordRep, record_request] using ihh
    · simpa [recordRep, record_request] using ihc

/-- C7: `estimate_max_need` returns the declared maximum below the
minimum-sample threshold, and otherwise the empirical quantile of the
window clamped to at least the current holding and at most the
capacity; consequently, after recording at least `min_samples`
observations all equal to 3 into an empty window (with positive
threshold, window at least the threshold and capacity at least 3) the
estimate is at least 3. -/
theorem estimate_max_need_spec :
    (∀ (s : EstimatorState) (a r : Nat) (c : Confidence),
        (s.samples a r).length < s.minSamples →
        estimate_max_need s a r c = s.declaredMax a r)
    ∧ (∀ (s : EstimatorState) (a r : Nat) (c : Confidence),
        s.minSamples ≤ (s.samples a r).length → 1 ≤ (s.samples a r).length →
          estimate_max_need s a r c ≤ s.capacity r
          ∧ (s.holdings a r ≤ s.capacity r →
              s.holdings a r ≤ estimate_max_need s a r c)
          ∧ ∃ x ∈ s.samples a r,
              estimate_max_need s a r c = min (max x (s.holdings a r)) (s.capacity r))
    ∧ (∀ (s : EstimatorState) (a r n : Nat) (c : Confidence),
        s.samples a r = [] → 1 ≤ s.minSamples → s.minSamples ≤ s.windowSize →
          s.minSamples ≤ n → 3 ≤ s.capacity r →
          3 ≤ estimate_max_need (recordRep s a r 3 n) a r c) := by
  refine ⟨fun s a r c h => ?_, fun s a r c hmin hpos => ?_, fun s a r n c he h1 hw hn hc => ?_⟩
  · unfold estimate_max_need
    rw [if_pos h]
  · have hne : s.samples a r ≠ [] := by
      intro hnil
      rw [hnil] at hpos
      simp at hpos
    have hq := empiricalQuantile_mem c hne
    unfold estimate_max_need
    rw [if_neg (by omega)]
    refine ⟨Nat.min_le_right _ _, fun hhc => ?_, ⟨empiricalQuantile c (s.samples a r), hq, rfl⟩⟩
    have : s.holdings a r ≤ max (empiricalQuantile c (s.samples a r)) (s.holdings a r) :=
      Nat.le_max_right _ _
    omega
  · obtain ⟨hall, hlen, hwc, hmc, hhc, hcc⟩ :=
      recordRep_samples_eq s a r 3 (by rw [he]; simp) n
        (by rw [he]; intro x hx; cases hx)
    rw [he] at hlen
    simp only [List.length_nil, Nat.zero_add] at hlen
    have hlen' : ((recordRep s a r 3 n).samples a r).length = min n s.windowSize := hlen
    have hge : s.minSamples ≤ ((recordRep s a r 3 n).samples a r).length := by omega
    have hpos : 1 ≤ ((recordRep s a r 3 n).samples a r).length := by omega
    have hne : (recordRep s a r 3 n).samples a r ≠ [] := by
      intro hnil
      rw [hnil] at hpos
      simp at hpos
    have hq := empiricalQuantile_mem c hne
    have hq3 : empiricalQuantile c ((recordRep s a r 3 n).samples a r) = 3 := hall _ hq
    unfold estimate_max_need
    rw [if_neg (by rw [hmc]; omega), hq3, hhc, hcc]
    have : 3 ≤ max 3 (s.holdings a r) := Nat.le_max_left _ _
    omega

/-! ### The `AgentGuard` wrapper's resource-name map (guard.py)

`AgentGuard.add_resource` keeps a `name → id` dictionary and a counter
starting at 1: a known name returns its stored id, a fresh name is
assigned the next id.  Dictionaries keyed by strings are modelled as
association lists where the first binding wins and insertion removes
the old binding. -/

def alookup {β : Type} : List (String × β) → String → Option β
  | [], _ => none
  | (n, v) :: t, m => if m = n then some v else alookup t m

def aerase {β : Type} (l : List (String × β)) (k : String) : List (String × β) :=
  l.filter (fun p => decide (p.1 ≠ k))

structure GuardState where
  resourceNames : List (String × Nat)
  nextResourceId : Nat

/-- The wrapper as constructed: empty name map, next id 1. -/
def guardInit : GuardState :=
  { resourceNames := [], nextResourceId := 1 }

/-- `AgentGuard.add_resource(name, capacity)`: return the stored id for
a known name, otherwise assign the next id and record the binding (the
capacity only affects the underlying manager registration, not the
returned id). -/
def add_resource (g : GuardState) (name : String) (cap : Nat) : Nat × GuardState :=
  match alookup g.resourceNames name with
  | some rid => (rid, g)
  | none =>
    (g.nextResourceId,
      { resourceNames := (name, g.nextResourceId) :: g.resourceNames
        nextResourceId := g.nextResourceId + 1 })

/-- C8: calling `add_resource` twice with the same name returns the
same id on both calls, whatever the capacities and the starting state. -/
theorem add_resource_idempotent_id (g : GuardState) (name : String) (c1 c2 : Nat) :
    (add_resource (add_resource g name c1).2 name c2).1 = (add_resource g name c1).1 := by
  unfold add_resource
  cases hl : alookup g.resourceNames name with
  | some rid => simp [hl]
  | none => simp [hl, alookup]

/-! ### The LangChain callback handler (callback.py)

`AgentGuardCallbackHandler` keys acquired resources by
`str(run_id) if run_id else tool_name` in `on_tool_start`, but pops
them by `str(run_id) if run_id else ""` in `on_tool_end`;
`on_tool_error` forwards its `run_id` to `on_tool_end`.  A Python
`run_id` is modelled as `Option String` (`none` = `None`); it is falsy
when it is `None` or the empty string. -/

def truthy : Option String → Bool
  | none => false
  | some s => if s = "" then false else true

def startKey (rid : Option String) (toolName : String) : String :=
  match rid with
  | some s => if s = "" then toolName else s
  | none => toolName

def endKey (rid : Option String) : String :=
  match rid with
  | some s => if s = "" then "" else s
  | none => ""

structure CBState where
  active : List (String × List (String × Nat))

/-- `on_tool_start`: look up the tool's configured resources; when
non-empty, acquire them (elided: the claim concerns the key book-keeping)
and record them in the active map under the start key. -/
def onToolStart (st : CBState) (toolResources : List (String × List (String × Nat)))
    (toolName : String) (rid : Option String) : CBState :=
  let resources := (alookup toolResources toolName).getD []
  if resources = [] then st
  else
    { active :=
        (startKey rid toolName, resources) :: aerase st.active (startKey rid toolName) }

/-- `on_tool_end`: pop the entry under the end key and release exactly
the popped resources (returned as the second component). -/
def onToolEnd (st : CBState) (rid : Option String) : CBState × List (String × Nat) :=
  match alookup st.active (endKey rid) with
  | some res => ({ active := aerase st.active (endKey rid) }, res)
  | none => ({ active := aerase st.active (endKey rid) }, [])

/-- `on_tool_error(error, run_id)` simply calls
`on_tool_end("", run_id=run_id)`. -/
def onToolError (st : CBState) (rid : Option String) : CBState × List (String × Nat) :=
  onToolEnd st rid

theorem alookup_aerase {β : Type} (l : List (String × β)) (k : String) :
    alookup (aerase l k) k = none := by
  induction l with
  | nil => rfl
  | cons p t ih =>
    obtain ⟨n, v⟩ := p
    by_cases h : n = k
    · simpa [aerase, h] using ih
    · simpa [aerase, alookup, h, Ne.symm h] using ih

theorem alookup_aerase_ne {β : Type} (l : List (String × β)) {k k' : String}
    (h : k' ≠ k) : alookup (aerase l k) k' = alookup l k' := by
  induction l with
  | nil => rfl
  | cons p t ih =>
    obtain ⟨n, v⟩ := p
    by_cases hn : n = k
    · subst hn
      simpa [aerase, alookup, h] using ih
    · by_cases hk : k' = n
      · simp [aerase, alookup, hn, hk]
      · simpa [aerase, alookup, hn, hk] using ih

theorem onToolEnd_active (st : CBState) (rid : Option String) :
    (onToolEnd st rid).1.active = aerase st.active (endKey rid) := by
  unfold onToolEnd
  cases alookup st.active (endKey rid) <;> rfl

theorem endKey_of_falsy {rid : Option String} (h : truthy rid = false) :
    endKey rid = "" := by
  cases rid with
  | none => rfl
  | some s =>
    simp only [truthy] at h
    simp only [endKey]
    by_cases hs : s = ""
    · rw [if_pos hs]
    · rw [if_neg hs] at h
      cases h

theorem startKey_of_falsy {rid : Option String} (h : truthy rid = false)
    (toolName : String) : startKey rid toolName = toolName := by
  cases rid with
  | none => rfl
  | some s =>
    simp only [truthy] at h
    simp only [startKey]
    by_cases hs : s = ""
    · rw [if_pos hs]
    · rw [if_neg hs] at h
      cases h

/-- C10 (amended): entries are released at most once — a second
`on_tool_end` for the same run id pops nothing; `on_tool_error`
forwards to `on_tool_end`; and under a falsy run id with a non-empty
tool name, the matching `on_tool_end`/`on_tool_error` releases only a
pre-existing empty-key entry — never what this `on_tool_start` stored,
whose entry survives untouched. -/
theorem callback_release_at_most_once :
    (∀ (st : CBState) (rid : Option String),
        (onToolEnd (onToolEnd st rid).1 rid).2 = [])
    ∧ (∀ (st : CBState) (rid : Option String), onToolError st rid = onToolEnd st rid)
    ∧ (∀ (st : CBState) (cfg : List (String × List (String × Nat)))
          (toolName : String) (rid : Option String),
        truthy rid = false → toolName ≠ "" →
          alookup (onToolEnd (onToolStart st cfg toolName rid) rid).1.active toolName
              = alookup (onToolStart st cfg toolName rid).active toolName
            ∧ (onToolEnd (onToolStart st cfg toolName rid) rid).2
                = (alookup st.active "").getD []) := by
  refine ⟨fun st rid => ?_, fun st rid => rfl, fun st cfg toolName rid hf ht => ?_⟩
  · have h2 : alookup (onToolEnd st rid).1.active (endKey rid) = none := by
      rw [onToolEnd_active st rid]
      exact alookup_aerase _ _
    generalize hgen : (onToolEnd st rid).1 = s2 at h2 ⊢
    unfold onToolEnd
    rw [h2]
  · have hek := endKey_of_falsy hf
    have hsk := startKey_of_falsy hf toolName
    have hkeep : alookup (onToolStart st cfg toolName rid).active ""
        = alookup st.active "" := by
      unfold onToolStart
      by_cases hres : (alookup cfg toolName).getD [] = []
      · rw [if_pos hres]
      · rw [if_neg hres]
        simp only [alookup, hsk]
        rw [if_neg (Ne.symm ht)]
        exact alookup_aerase_ne st.active (Ne.symm ht)
    constructor
    · rw [onToolEnd_active, hek]
      exact alookup_aerase_ne _ ht
    · unfold onToolEnd
      rw [hek, hkeep]
      cases halk : alookup st.active "" <;> simp

/-- Counterexample to C10 as stated: with the empty string as tool
name, the resources stored by `on_tool_start` under the falsy run id
`None` land under the key `""` — exactly the key the matching
`on_tool_end` pops — so they ARE released, contradicting the claim's
"never released". -/
theorem callback_falsy_release_counterexample :
    truthy none = false ∧
      (onToolEnd (onToolStart ⟨[]⟩ [("", [("tools", 1)])] "" none) none).2
        = [("tools", 1)] := by
  constructor
  · rfl
  · rfl

end AgentGuard
